import Mathlib

/-!
Verification of the sllm preprocessing and training scripts against their
specification.  The Python sources are embedded shallowly: pure functions
become Lean functions, fallible code returns `Except String`, and external
effects (HTTP chat calls, dataset streaming, the file system, the tokenizer)
are passed in as explicit parameters or input lists.
-/

/-! ## Model of Python `str.format`

`src/unsloth/train/cpt_train.py` fills `CPT_CODE_PROMPT` via `str.format`.
The model below resolves replacement fields the way CPython does for
templates that contain no brace escapes and no mixed automatic/manual
numbering (the embedded template has neither): an empty field name consumes
the next positional argument, an all-digit name indexes the positional
arguments, and any other name is looked up among the keyword arguments,
raising KeyError when absent. -/

/-- Scanner state of the format-string walk: plain text, or inside a
replacement field with the (reversed) characters of the field name read so
far. -/
inductive FmtMode where
  | text : FmtMode
  | field : List Char → FmtMode

/-- Walk the template characters, resolving each replacement field against
the positional arguments `pos` and keyword arguments `kw`. -/
def pyFormatGo (kw : List (String × String)) :
    List Char → FmtMode → List String → Except String String
  | [], .text, _ => .ok ""
  | [], .field _, _ => .error "ValueError: Single left brace in format string"
  | c :: rest, .text, pos =>
    if c = '{' then pyFormatGo kw rest (.field []) pos
    else (pyFormatGo kw rest .text pos).map (fun t => String.mk (c :: t.data))
  | c :: rest, .field acc, pos =>
    if c = '}' then
      let name : String := String.mk acc.reverse
      if name = "" then
        match pos with
        | [] => .error "IndexError: Replacement index out of range"
        | v :: posRest => (pyFormatGo kw rest .text posRest).map (fun t => v ++ t)
      else if name.data.all Char.isDigit then
        match pos.get? (name.toNat?.getD 0) with
        | none => .error "IndexError: Replacement index out of range"
        | some v => (pyFormatGo kw rest .text pos).map (fun t => v ++ t)
      else
        match kw.lookup name with
        | none => .error ("KeyError: " ++ name)
        | some v => (pyFormatGo kw rest .text pos).map (fun t => v ++ t)
    else pyFormatGo kw rest (.field (c :: acc)) pos

/-- `template.format(*pos, **kw)`. -/
def pyFormat (template : String) (pos : List String) (kw : List (String × String)) :
    Except String String :=
  pyFormatGo kw template.data .text pos

/-! ## Training driver (`src/unsloth/train/cpt_train.py`) -/

/-- The module-level prompt template `CPT_CODE_PROMPT`. -/
def CPT_CODE_PROMPT : String := "\n# File: {file_path}\n\n# Code Content:\n{content}\n"

/-- One row of a loaded dataset source: the fields the formatting function
reads. -/
structure RawRecord where
  file_path : String
  content : String
deriving DecidableEq

/-- `formatting_prompts_func`: for every row, `CPT_CODE_PROMPT.format(file_path,
content) + EOS_TOKEN`, collecting the new text column.  The source passes the
two values positionally. -/
def formatting_prompts_func (eos : String) (batch : List RawRecord) :
    Except String (List String) :=
  batch.mapM fun r => (pyFormat CPT_CODE_PROMPT [r.file_path, r.content] []).map
    (fun t => t ++ eos)

/-- The rows held by the loop variable `dataset` after the source-loading
loop: the train split of the last loaded source (`none` when there are no
sources and the variable is never bound). -/
def datasetVar (sources : List (List RawRecord)) : Option (List RawRecord) :=
  sources.getLast?

/-- The rows of `concatenate_datasets(datasets_to_combine)`: all sources
joined in order. -/
def combinedRows (sources : List (List RawRecord)) : List RawRecord :=
  sources.flatten

/-- `combined_dataset` after `.map(formatting_prompts_func, batched=True)`:
each row keeps its original fields and gains the formatted text column. -/
def combined_dataset (eos : String) (sources : List (List RawRecord)) :
    Except String (List (RawRecord × String)) :=
  (combinedRows sources).mapM fun r =>
    (pyFormat CPT_CODE_PROMPT [r.file_path, r.content] []).map (fun t => (r, t ++ eos))

/-! ## Language classifier (`src/preprocess/filtering_github2025.py`) -/

/-- The module-level `ALLOWED_LANGUAGES` mapping, in source order. -/
def ALLOWED_LANGUAGES : List (String × List String) :=
  [("python", [".py"]),
   ("javascript", [".js", ".jsx"]),
   ("typescript", [".ts", ".tsx"]),
   ("java", [".java"]),
   ("c", [".c", ".h"]),
   ("cpp", [".cpp", ".hpp", ".cc", ".hh", ".cxx", ".hxx"]),
   ("go", [".go"]),
   ("rust", [".rs"]),
   ("ruby", [".rb"]),
   ("php", [".php"]),
   ("swift", [".swift"]),
   ("kotlin", [".kt", ".kts"]),
   ("scala", [".scala"]),
   ("r", [".r", ".R"]),
   ("shell", [".sh", ".bash"])]

/-- Python `str.lower`, character by character (the paths in play are
ASCII, where CPython and `Char.toLower` agree). -/
def pyLower (s : String) : String :=
  String.mk (s.data.map Char.toLower)

/-- Index of the last occurrence of `c` in `cs`, if any. -/
def lastIndexOf (cs : List Char) (c : Char) : Option Nat :=
  cs.enum.foldl (fun acc p => if p.2 = c then some p.1 else acc) none

/-- `os.path.splitext` for POSIX paths: split at the last dot of the last
path component, unless every character of that component before the dot is
itself a dot. -/
def pySplitext (p : String) : String × String :=
  let cs := p.data
  let sepIdx : Int := match lastIndexOf cs '/' with
    | some i => (i : Int)
    | none => -1
  let dotIdx : Int := match lastIndexOf cs '.' with
    | some i => (i : Int)
    | none => -1
  if sepIdx < dotIdx then
    let nameStart := (sepIdx + 1).toNat
    let dotN := dotIdx.toNat
    if ((cs.drop nameStart).take (dotN - nameStart)).any (fun ch => ch ≠ '.') then
      (String.mk (cs.take dotN), String.mk (cs.drop dotN))
    else (p, "")
  else (p, "")

/-- `get_language_from_filepath`: lowercase the path, take its extension,
and return the first language of `ALLOWED_LANGUAGES` owning that extension,
or `none`. -/
def get_language_from_filepath (path : String) : Option String :=
  ALLOWED_LANGUAGES.findSome? fun p =>
    if (pySplitext (pyLower path)).2 ∈ p.2 then some p.1 else none

/-! ## Collector (`src/preprocess/filtering_github2025.py`, `main`) -/

/-- One streamed example: a Python dict whose fields may be absent. -/
structure StreamExample where
  file_path : Option String
  repo_id : Option String
  size : Option Nat
  content : Option String
deriving DecidableEq

/-- One element appended to `collected_data`. -/
structure CollectedRecord where
  repo_id : String
  size : Nat
  file_path : String
  content : String
deriving DecidableEq

/-- The record built for a matching example: `example.get` fallbacks per the
source (`"unknown"` repo id, content length for a missing size). -/
def exampleRecord (ex : StreamExample) (fp : String) : CollectedRecord :=
  { repo_id := ex.repo_id.getD "unknown"
    size := ex.size.getD (ex.content.getD "").length
    file_path := fp
    content := ex.content.getD "" }

/-- `detected_language in args.languages`: `None` matches nothing. -/
def langMatch (langs : List String) (fp : String) : Bool :=
  match get_language_from_filepath fp with
  | some l => langs.contains l
  | none => false

/-- The collection loop over the streamed examples: skip examples without a
file path (without checking the target), append matching examples, and stop
as soon as `len(collected_data) >= sample_size` at the end of an iteration. -/
def collectLoop (langs : List String) (sampleSize : Nat) :
    List StreamExample → List CollectedRecord → List CollectedRecord
  | [], acc => acc
  | ex :: rest, acc =>
    match ex.file_path with
    | none => collectLoop langs sampleSize rest acc
    | some fp =>
      let acc2 := if langMatch langs fp then acc ++ [exampleRecord ex fp] else acc
      if sampleSize ≤ acc2.length then acc2 else collectLoop langs sampleSize rest acc2

/-- `collected_data` when the collector main runs over `stream`. -/
def collectMain (langs : List String) (sampleSize : Nat)
    (stream : List StreamExample) : List CollectedRecord :=
  collectLoop langs sampleSize stream []

/-! ## Prompt-pair generator (`src/preprocess/sft_data_generate.py`) -/

/-- An input code record (`repo_id`, `file_path`, `content` are the fields
the generator reads). -/
structure CodeEntry where
  repo_id : String
  file_path : String
  content : String
deriving DecidableEq

/-- The `metadata` dict of a generated pair. -/
structure SFTMeta where
  strategy : String
  repo_id : String
  file_path : String
deriving DecidableEq

/-- One instruction/output pair. -/
structure SFTEntry where
  instruction : String
  output : String
  metadata : SFTMeta
deriving DecidableEq

/-- The `__name__`s of the four strategies left uncommented in
`SFTDataGenerator.__init__` (four of the eight defined methods), in menu
order. -/
def strategyNames : List String :=
  ["_generate_code_documentation",
   "_generate_code_completion",
   "_generate_function_implementation",
   "_generate_code_summary"]

/-- Number of strategies in the active menu. -/
def numStrategies : Nat := strategyNames.length

/-- Every strategy body is a prompt construction around one or two external
chat-completion calls; an oracle gives the outcome of calling strategy `i`
on an entry (`.error` models a raised exception's message). -/
def StrategyOracle : Type := Nat → CodeEntry → Except String SFTEntry

/-- The `error_msg` built in `generate_sft_data`'s except branch. -/
def errorMessage (name fp orig : String) : String :=
  "❌ 에러 발생 (" ++ name ++ "): " ++ fp ++ "\n" ++ orig

/-- `self.strategies[:strategies_per_code]`, as menu indices. -/
def selectedIdx (s : Nat) : List Nat := (List.range numStrategies).take s

/-- The inner strategy loop for one entry: append each successful pair to
the accumulated dataset; on failure either continue (skip_errors) or abort
with the formatted error message. -/
def applyStrategies (env : StrategyOracle) (e : CodeEntry) (skip : Bool) :
    List Nat → List SFTEntry → Except String (List SFTEntry)
  | [], acc => .ok acc
  | i :: rest, acc =>
    match env i e with
    | .ok p => applyStrategies env e skip rest (acc ++ [p])
    | .error msg =>
      if skip then applyStrategies env e skip rest acc
      else .error (errorMessage (strategyNames.getD i "") e.file_path msg)

/-- The outer loop of `generate_sft_data`: skip entries whose content
exceeds `max_code_length`, then run the selected strategies. -/
def generateLoop (env : StrategyOracle) (s : Nat) (skip : Bool) (m : Nat) :
    List CodeEntry → List SFTEntry → Except String (List SFTEntry)
  | [], acc => .ok acc
  | e :: rest, acc =>
    if m < e.content.length then generateLoop env s skip m rest acc
    else
      match applyStrategies env e skip (selectedIdx s) acc with
      | .ok acc2 => generateLoop env s skip m rest acc2
      | .error msg => .error msg

/-- `SFTDataGenerator.generate_sft_data(code_entries, strategies_per_code,
skip_errors)` with `max_code_length = m`. -/
def generate_sft_data (env : StrategyOracle) (entries : List CodeEntry)
    (s : Nat) (skip : Bool) (m : Nat) : Except String (List SFTEntry) :=
  generateLoop env s skip m entries []

/-- Python truthiness of the optional `--sample_size` argument. -/
def pyTruthyInt : Option Int → Bool
  | none => false
  | some n => n ≠ 0

/-- Python list slice `l[:n]`, including negative `n`. -/
def pySlicePrefix (n : Int) (l : List CodeEntry) : List CodeEntry :=
  if 0 ≤ n then l.take n.toNat else l.take (l.length - (-n).toNat)

/-- The sampling step of the generator CLI main: `if args.sample_size:
code_entries = code_entries[:args.sample_size]`. -/
def applySampling (sampleSize : Option Int) (entries : List CodeEntry) :
    List CodeEntry :=
  if pyTruthyInt sampleSize then pySlicePrefix (sampleSize.getD 0) entries
  else entries

/-! ## Local harvester (`src/preprocess/make_autosar_cpt_data.py`) -/

/-- One entry of the recursive enumeration: its path, whether it is a
directory, the text obtained by each of the two attempted decodings (when
that decoding succeeds), and the on-disk byte size. -/
structure FsEntry where
  path : String
  isDir : Bool
  utf8 : Option String
  cp949 : Option String
  size : Nat
deriving DecidableEq

/-- The try/except read: primary encoding, then the cp949 fallback, then the
failure propagates. -/
def readFile (e : FsEntry) : Except String String :=
  match e.utf8 with
  | some code => .ok code
  | none =>
    match e.cp949 with
    | some code => .ok code
    | none => .error ("UnicodeDecodeError: " ++ e.path)

/-- One `data_entry` of the harvested dataset. -/
structure DataEntry where
  repo_id : String
  file_path : String
  content : String
  size : Nat
  token_size : Nat
deriving DecidableEq

/-- The harvest loop: skip directories, read each file, and append a record
with the relative path, byte size, and tokenizer-derived token count
(`tok` models `tokenizer.encode`, `relp` models `os.path.relpath`). -/
def harvest (repoId : String) (tok : String → List Nat) (relp : String → String) :
    List FsEntry → Except String (List DataEntry)
  | [] => .ok []
  | e :: rest =>
    if e.isDir then harvest repoId tok relp rest
    else
      match readFile e with
      | .error msg => .error msg
      | .ok code =>
        match harvest repoId tok relp rest with
        | .error msg => .error msg
        | .ok ds =>
          .ok ({ repo_id := repoId, file_path := relp e.path, content := code,
                 size := e.size, token_size := (tok code).length } :: ds)

/-- `max(check_token_size_list, key=lambda x: x[0])`: keeps the first entry
with the maximal key, raising on an empty list. -/
def pyMaxByFst : List (Nat × String) → Except String (Nat × String)
  | [] => .error "ValueError: max() arg is an empty sequence"
  | x :: xs => .ok (xs.foldl (fun b a => if b.1 < a.1 then a else b) x)

/-- `min(check_token_size_list, key=lambda x: x[0])`: keeps the first entry
with the minimal key, raising on an empty list. -/
def pyMinByFst : List (Nat × String) → Except String (Nat × String)
  | [] => .error "ValueError: min() arg is an empty sequence"
  | x :: xs => .ok (xs.foldl (fun b a => if a.1 < b.1 then a else b) x)

/-- The statistics step after the write: max entry, min entry, and the true
average of the token counts (division raising on an empty list). -/
def statsStep (l : List (Nat × String)) :
    Except String ((Nat × String) × (Nat × String) × ℚ) :=
  match pyMaxByFst l with
  | .error msg => .error msg
  | .ok mx =>
    match pyMinByFst l with
    | .error msg => .error msg
    | .ok mn =>
      if l.length = 0 then .error "ZeroDivisionError: division by zero"
      else .ok (mx, mn, (((l.map Prod.fst).sum : Nat) : ℚ) / (l.length : ℚ))

/-- The whole harvester main after the enumeration: first component is the
content written to the output file (`none` when an uncaught read failure
aborts the run before the write), second the outcome of the statistics
step that follows the write. -/
def harvesterRun (repoId : String) (tok : String → List Nat)
    (relp : String → String) (fs : List FsEntry) :
    Option (List DataEntry) × Except String ((Nat × String) × (Nat × String) × ℚ) :=
  match harvest repoId tok relp fs with
  | .error msg => (none, .error msg)
  | .ok ds => (some ds, statsStep (ds.map (fun d => (d.token_size, d.file_path))))

/-! ## Helper lemmas -/

/-- `findSome?` over a language table returns `none` when no row owns the
extension. -/
lemma findLang_none (t : List (String × List String)) (ext : String)
    (h : ∀ p ∈ t, ext ∉ p.2) :
    (t.findSome? fun p => if ext ∈ p.2 then some p.1 else none) = none := by
  induction t with
  | nil => rfl
  | cons p rest ih =>
    have hp : ext ∉ p.2 := h p (List.mem_cons_self _ _)
    rw [List.findSome?_cons]
    simp only [if_neg hp]
    exact ih (fun q hq => h q (List.mem_cons_of_mem _ hq))

/-- With pairwise-disjoint extension lists, `findSome?` returns the owner of
any extension present in the table. -/
lemma findLang_mem (t : List (String × List String)) (ext lang : String)
    (exts : List String)
    (hd : t.Pairwise (fun p q => ∀ x ∈ p.2, x ∉ q.2))
    (hmem : (lang, exts) ∈ t) (he : ext ∈ exts) :
    (t.findSome? fun p => if ext ∈ p.2 then some p.1 else none) = some lang := by
  induction t with
  | nil => cases hmem
  | cons p rest ih =>
    rcases List.pairwise_cons.mp hd with ⟨hd1, hd2⟩
    rw [List.findSome?_cons]
    rcases List.mem_cons.mp hmem with hp | hp
    · subst hp
      simp only [if_pos he]
    · have hnp : ext ∉ p.2 := fun hx => (hd1 (lang, exts) hp ext hx) he
      simp only [if_neg hnp]
      exact ih hd2 hp

/-- The extension lists of `ALLOWED_LANGUAGES` are pairwise disjoint. -/
lemma allowed_languages_disjoint :
    ALLOWED_LANGUAGES.Pairwise (fun p q => ∀ x ∈ p.2, x ∉ q.2) := by decide

/-! ## Claim theorems -/

/-- C6: the classifier returns the unique owning language of the lowercased
extension when some table row contains it, and `none` when no row does. -/
theorem get_language_from_filepath_spec (path : String) :
    (∀ lang exts, (lang, exts) ∈ ALLOWED_LANGUAGES →
        (pySplitext (pyLower path)).2 ∈ exts →
        get_language_from_filepath path = some lang) ∧
    ((∀ p ∈ ALLOWED_LANGUAGES, (pySplitext (pyLower path)).2 ∉ p.2) →
        get_language_from_filepath path = none) := by
  constructor
  · intro lang exts hmem he
    unfold get_language_from_filepath
    exact findLang_mem _ _ _ _ allowed_languages_disjoint hmem he
  · intro h
    unfold get_language_from_filepath
    exact findLang_none _ _ h

/-- C6 witness: a concrete mixed-case path classified as cpp. -/
theorem get_language_from_filepath_spec_witness :
    get_language_from_filepath "Src/Main.CPP" = some "cpp" :=
  (get_language_from_filepath_spec "Src/Main.CPP").1 "cpp"
    [".cpp", ".hpp", ".cc", ".hh", ".cxx", ".hxx"] (by decide) (by decide)

/-- The two one-row dataset sources used to exhibit C1's defect. -/
def recA : RawRecord := { file_path := "a.py", content := "print(1)" }

/-- Second one-row source for C1. -/
def recB : RawRecord := { file_path := "b.py", content := "print(2)" }

/-- C1: at a concrete two-source configuration the trainer's `train_dataset`
argument is the raw last-loaded `dataset` variable, whose rows differ from
the combined dataset's rows (the first source is dropped and no formatting
is applied). -/
theorem trainer_receives_raw_last_dataset :
    datasetVar [[recA], [recB]] = some [recB] ∧
    combinedRows [[recA], [recB]] = [recA, recB] ∧
    datasetVar [[recA], [recB]] ≠ some (combinedRows [[recA], [recB]]) := by
  refine ⟨rfl, rfl, ?_⟩
  decide

/-- C2: `formatting_prompts_func` raises KeyError on every record because
the template's named fields are filled positionally; evaluated at a concrete
record. -/
theorem formatting_prompts_func_raises :
    formatting_prompts_func "</s>" [{ file_path := "a.py", content := "print(1)" }] =
      .error "KeyError: file_path" := rfl

/-- C10: a `--sample_size` of 0 is falsy, so no truncation happens and the
whole input list is processed, exactly as with the `None` default. -/
theorem generator_sample_size_zero (entries : List CodeEntry) :
    applySampling (some 0) entries = entries ∧
    applySampling none entries = entries := by
  constructor <;> rfl

/-- For a positive target the collection loop never grows past it. -/
lemma collectLoop_length_le (langs : List String) (s : Nat)
    (stream : List StreamExample) :
    ∀ acc : List CollectedRecord, acc.length < s →
      (collectLoop langs s stream acc).length ≤ s := by
  induction stream with
  | nil => intro acc h; exact Nat.le_of_lt h
  | cons ex rest ih =>
    intro acc h
    cases hfp : ex.file_path with
    | none => simp only [collectLoop, hfp]; exact ih acc h
    | some fp =>
      simp only [collectLoop, hfp]
      have hlen : (if langMatch langs fp then acc ++ [exampleRecord ex fp]
          else acc).length ≤ acc.length + 1 := by
        split
        · simp
        · exact Nat.le_succ _
      by_cases hc : s ≤ (if langMatch langs fp then acc ++ [exampleRecord ex fp]
          else acc).length
      · rw [if_pos hc]; omega
      · rw [if_neg hc]; exact ih _ (by omega)

/-- With a zero target the loop stops at the first path-bearing example, so
at most one record is ever collected. -/
lemma collectLoop_zero (langs : List String) (stream : List StreamExample) :
    ∀ acc : List CollectedRecord,
      (collectLoop langs 0 stream acc).length ≤ acc.length + 1 := by
  induction stream with
  | nil => intro acc; simp only [collectLoop]; omega
  | cons ex rest ih =>
    intro acc
    cases hfp : ex.file_path with
    | none => simp only [collectLoop, hfp]; exact ih acc
    | some fp =>
      simp only [collectLoop, hfp]
      rw [if_pos (Nat.zero_le _)]
      split
      · simp
      · omega

/-- Every record the loop adds matches a requested language. -/
lemma langMatch_exists {langs : List String} {fp : String}
    (h : langMatch langs fp = true) :
    ∃ l ∈ langs, get_language_from_filepath fp = some l := by
  unfold langMatch at h
  cases hg : get_language_from_filepath fp with
  | none => rw [hg] at h; cases h
  | some l =>
    rw [hg] at h
    exact ⟨l, List.elem_iff.mp h, rfl⟩

/-- Records produced by the loop are either inherited from the accumulator
or classified into a requested language. -/
lemma collectLoop_mem (langs : List String) (s : Nat)
    (stream : List StreamExample) :
    ∀ acc r, r ∈ collectLoop langs s stream acc →
      r ∈ acc ∨ ∃ l ∈ langs, get_language_from_filepath r.file_path = some l := by
  induction stream with
  | nil => intro acc r hr; exact Or.inl hr
  | cons ex rest ih =>
    intro acc r hr
    cases hfp : ex.file_path with
    | none => simp only [collectLoop, hfp] at hr; exact ih acc r hr
    | some fp =>
      simp only [collectLoop, hfp] at hr
      have key : ∀ hr2 : r ∈ (if langMatch langs fp then
          acc ++ [exampleRecord ex fp] else acc),
          r ∈ acc ∨ ∃ l ∈ langs, get_language_from_filepath r.file_path = some l := by
        intro hr2
        by_cases hm : langMatch langs fp
        · rw [if_pos hm] at hr2
          rcases List.mem_append.mp hr2 with h2 | h2
          · exact Or.inl h2
          · have hre : r = exampleRecord ex fp := by simpa using h2
            subst hre
            exact Or.inr (langMatch_exists hm)
        · rw [if_neg hm] at hr2; exact Or.inl hr2
      by_cases hc : s ≤ (if langMatch langs fp then acc ++ [exampleRecord ex fp]
          else acc).length
      · rw [if_pos hc] at hr; exact key hr
      · rw [if_neg hc] at hr
        rcases ih _ r hr with h | h
        · exact key h
        · exact Or.inr h

/-- C3 (amended): the collected list never exceeds `max sample_size 1`
records (for positive targets, never more than `sample_size`; with a target
of zero one matching record can slip in before the stop check), and every
collected record's classified language lies in the requested set. -/
theorem collector_invariants (langs : List String) (s : Nat)
    (stream : List StreamExample) :
    (collectMain langs s stream).length ≤ max s 1 ∧
    ∀ r ∈ collectMain langs s stream,
      ∃ l ∈ langs, get_language_from_filepath r.file_path = some l := by
  constructor
  · cases s with
    | zero =>
      have := collectLoop_zero langs stream []
      simpa [collectMain] using this
    | succ n =>
      have := collectLoop_length_le langs (n + 1) stream [] (by simp)
      exact le_trans this (le_max_left _ _)
  · intro r hr
    rcases collectLoop_mem langs s stream [] r hr with h | h
    · exact absurd h (List.not_mem_nil r)
    · exact h

/-- The stream example showing C3's bound fails at `sample_size = 0`. -/
def c3Example : StreamExample :=
  { file_path := some "a.py", repo_id := none, size := none, content := none }

/-- C3 counterexample: with `sample_size = 0` and one matching streamed
record, the collected list holds one record, exceeding the requested count. -/
theorem collector_sample_zero_overflow :
    ¬ ((collectMain ["python"] 0 [c3Example]).length ≤ 0) := by decide

/-- C3 witness: the amended invariant applied to a concrete run whose single
collected record is classified as python. -/
theorem collector_invariants_witness :
    ∃ l ∈ ["python"], get_language_from_filepath
      (exampleRecord c3Example "a.py").file_path = some l :=
  (collector_invariants ["python"] 2 [c3Example]).2 (exampleRecord c3Example "a.py")
    (by decide)

/-- Successful component of a strategy outcome. -/
def exOk? : Except String SFTEntry → Option SFTEntry
  | .ok p => some p
  | .error _ => none

/-- Spec-side description: the pairs the generator keeps — for every entry
within the length bound, the successful outcomes of the selected strategies,
in order. -/
def keptPairs (env : StrategyOracle) (s m : Nat) (entries : List CodeEntry) :
    List SFTEntry :=
  (entries.filter (fun e => e.content.length ≤ m)).flatMap
    (fun e => (selectedIdx s).filterMap (fun i => exOk? (env i e)))

/-- Spec-side description: the formatted message of the first failing
strategy call in processing order, if any. -/
def firstFailureMsg (env : StrategyOracle) (s m : Nat)
    (entries : List CodeEntry) : Option String :=
  (entries.filter (fun e => e.content.length ≤ m)).findSome? fun e =>
    (selectedIdx s).findSome? fun i =>
      match env i e with
      | .error msg => some (errorMessage (strategyNames.getD i "") e.file_path msg)
      | .ok _ => none


/-- With skip_errors the inner loop keeps exactly the successful outcomes. -/
lemma applyStrategies_skip (env : StrategyOracle) (e : CodeEntry) :
    ∀ (idxs : List Nat) (acc : List SFTEntry),
      applyStrategies env e true idxs acc =
        .ok (acc ++ idxs.filterMap (fun i => exOk? (env i e))) := by
  intro idxs
  induction idxs with
  | nil => intro acc; simp [applyStrategies]
  | cons i rest ih =>
    intro acc
    cases h : env i e with
    | ok p =>
      have hx : exOk? (env i e) = some p := by rw [h]; rfl
      have hfm : List.filterMap (fun i => exOk? (env i e)) (i :: rest) =
          p :: List.filterMap (fun i => exOk? (env i e)) rest := by
        rw [List.filterMap_cons]
        simp only [hx]
      simp only [applyStrategies, h, hfm]
      rw [ih]
      simp
    | error msg =>
      have hx : exOk? (env i e) = none := by rw [h]; rfl
      have hfm : List.filterMap (fun i => exOk? (env i e)) (i :: rest) =
          List.filterMap (fun i => exOk? (env i e)) rest := by
        rw [List.filterMap_cons]
        simp only [hx]
      simp only [applyStrategies, h]
      rw [if_pos trivial, hfm]
      exact ih acc

/-- Without skip_errors the inner loop returns all successes, or else the
message of the first failure. -/
lemma applyStrategies_strict (env : StrategyOracle) (e : CodeEntry) :
    ∀ (idxs : List Nat) (acc : List SFTEntry),
      applyStrategies env e false idxs acc =
        match idxs.findSome? (fun i =>
            match env i e with
            | .error msg => some (errorMessage (strategyNames.getD i "") e.file_path msg)
            | .ok _ => none) with
        | none => .ok (acc ++ idxs.filterMap (fun i => exOk? (env i e)))
        | some msg => .error msg := by
  intro idxs
  induction idxs with
  | nil => intro acc; simp [applyStrategies, List.findSome?]
  | cons i rest ih =>
    intro acc
    cases h : env i e with
    | ok p =>
      have hx : exOk? (env i e) = some p := by rw [h]; rfl
      have hh : (match env i e with
          | Except.error msg =>
              some (errorMessage (strategyNames.getD i "") e.file_path msg)
          | Except.ok _ => none) = (none : Option String) := by rw [h]
      have hfm : List.filterMap (fun i => exOk? (env i e)) (i :: rest) =
          p :: List.filterMap (fun i => exOk? (env i e)) rest := by
        rw [List.filterMap_cons]
        simp only [hx]
      have hfs : List.findSome? (fun i =>
          match env i e with
          | Except.error msg =>
              some (errorMessage (strategyNames.getD i "") e.file_path msg)
          | Except.ok _ => none) (i :: rest) =
          List.findSome? (fun i =>
          match env i e with
          | Except.error msg =>
              some (errorMessage (strategyNames.getD i "") e.file_path msg)
          | Except.ok _ => none) rest := by
        rw [List.findSome?_cons]
        simp only [hh]
      simp only [applyStrategies, h, hfs, hfm]
      rw [ih]
      cases hf : List.findSome? (fun i =>
          match env i e with
          | Except.error msg =>
              some (errorMessage (strategyNames.getD i "") e.file_path msg)
          | Except.ok _ => none) rest with
      | none => simp only [hf]; simp
      | some msg2 => simp only [hf]
    | error msg =>
      have hh : (match env i e with
          | Except.error msg =>
              some (errorMessage (strategyNames.getD i "") e.file_path msg)
          | Except.ok _ => none) =
          some (errorMessage (strategyNames.getD i "") e.file_path msg) := by rw [h]
      have hfs : List.findSome? (fun i =>
          match env i e with
          | Except.error msg =>
              some (errorMessage (strategyNames.getD i "") e.file_path msg)
          | Except.ok _ => none) (i :: rest) =
          some (errorMessage (strategyNames.getD i "") e.file_path msg) := by
        rw [List.findSome?_cons]
        simp only [hh]
      simp only [applyStrategies, h, hfs]
      simp

/-- An over-length entry contributes nothing to the kept pairs. -/
lemma keptPairs_cons_skip (env : StrategyOracle) (s m : Nat) (e : CodeEntry)
    (rest : List CodeEntry) (hdec : decide (e.content.length ≤ m) = false) :
    keptPairs env s m (e :: rest) = keptPairs env s m rest := by
  simp [keptPairs, List.filter_cons, hdec]

/-- An in-length entry contributes its successful outcomes first. -/
lemma keptPairs_cons_keep (env : StrategyOracle) (s m : Nat) (e : CodeEntry)
    (rest : List CodeEntry) (hdec : decide (e.content.length ≤ m) = true) :
    keptPairs env s m (e :: rest) =
      (selectedIdx s).filterMap (fun i => exOk? (env i e)) ++
        keptPairs env s m rest := by
  simp [keptPairs, List.filter_cons, hdec]

/-- An over-length entry contributes no failure either. -/
lemma firstFailureMsg_cons_skip (env : StrategyOracle) (s m : Nat)
    (e : CodeEntry) (rest : List CodeEntry)
    (hdec : decide (e.content.length ≤ m) = false) :
    firstFailureMsg env s m (e :: rest) = firstFailureMsg env s m rest := by
  simp [firstFailureMsg, List.filter_cons, hdec]

/-- An in-length entry with no failing selected strategy defers to the rest. -/
lemma firstFailureMsg_cons_keep_none (env : StrategyOracle) (s m : Nat)
    (e : CodeEntry) (rest : List CodeEntry)
    (hdec : decide (e.content.length ≤ m) = true)
    (hf : (selectedIdx s).findSome? (fun i =>
        match env i e with
        | .error msg => some (errorMessage (strategyNames.getD i "") e.file_path msg)
        | .ok _ => none) = none) :
    firstFailureMsg env s m (e :: rest) = firstFailureMsg env s m rest := by
  unfold firstFailureMsg
  rw [List.filter_cons, hdec, if_pos rfl, List.findSome?_cons, hf]

/-- An in-length entry's own first failure is the run's first failure. -/
lemma firstFailureMsg_cons_keep_some (env : StrategyOracle) (s m : Nat)
    (e : CodeEntry) (rest : List CodeEntry) (msg : String)
    (hdec : decide (e.content.length ≤ m) = true)
    (hf : (selectedIdx s).findSome? (fun i =>
        match env i e with
        | .error msg => some (errorMessage (strategyNames.getD i "") e.file_path msg)
        | .ok _ => none) = some msg) :
    firstFailureMsg env s m (e :: rest) = some msg := by
  unfold firstFailureMsg
  rw [List.filter_cons, hdec, if_pos rfl, List.findSome?_cons, hf]

/-- With skip_errors the generator returns exactly the kept pairs. -/
lemma generateLoop_skip (env : StrategyOracle) (s m : Nat)
    (entries : List CodeEntry) :
    ∀ acc, generateLoop env s true m entries acc =
      .ok (acc ++ keptPairs env s m entries) := by
  induction entries with
  | nil => intro acc; simp [generateLoop, keptPairs]
  | cons e rest ih =>
    intro acc
    by_cases hm : m < e.content.length
    · have hdec : decide (e.content.length ≤ m) = false := by
        simp only [decide_eq_false_iff_not]; omega
      simp only [generateLoop, if_pos hm]
      rw [ih, keptPairs_cons_skip env s m e rest hdec]
    · have hdec : decide (e.content.length ≤ m) = true := by
        simp only [decide_eq_true_eq]; omega
      simp only [generateLoop, if_neg hm, applyStrategies_skip]
      rw [ih, keptPairs_cons_keep env s m e rest hdec]
      simp [List.append_assoc]

/-- Without skip_errors the generator returns the kept pairs, or aborts with
the first failure's message. -/
lemma generateLoop_strict (env : StrategyOracle) (s m : Nat)
    (entries : List CodeEntry) :
    ∀ acc, generateLoop env s false m entries acc =
      match firstFailureMsg env s m entries with
      | none => .ok (acc ++ keptPairs env s m entries)
      | some msg => .error msg := by
  induction entries with
  | nil => intro acc; simp [generateLoop, keptPairs, firstFailureMsg, List.findSome?]
  | cons e rest ih =>
    intro acc
    by_cases hm : m < e.content.length
    · have hdec : decide (e.content.length ≤ m) = false := by
        simp only [decide_eq_false_iff_not]; omega
      simp only [generateLoop, if_pos hm]
      rw [ih, firstFailureMsg_cons_skip env s m e rest hdec,
        keptPairs_cons_skip env s m e rest hdec]
    · have hdec : decide (e.content.length ≤ m) = true := by
        simp only [decide_eq_true_eq]; omega
      simp only [generateLoop, if_neg hm, applyStrategies_strict]
      rw [keptPairs_cons_keep env s m e rest hdec]
      cases hf : (selectedIdx s).findSome? (fun i =>
          match env i e with
          | Except.error msg =>
              some (errorMessage (strategyNames.getD i "") e.file_path msg)
          | Except.ok _ => none) with
      | none =>
        rw [firstFailureMsg_cons_keep_none env s m e rest hdec hf]
        simp only [hf]
        rw [ih]
        cases hr : firstFailureMsg env s m rest with
        | none => simp
        | some msg => rfl
      | some msg =>
        rw [firstFailureMsg_cons_keep_some env s m e rest msg hdec hf]

/-- C7: with skip_errors true a failing strategy is skipped and the pairs
already collected are kept (the run returns the successful outcomes of the
selected strategies, per record, in order); with skip_errors false the run
aborts with the first failure's formatted message, which carries the
originating error text as a suffix. -/
theorem generator_error_policy (env : StrategyOracle) (entries : List CodeEntry)
    (s m : Nat) :
    generate_sft_data env entries s true m = .ok (keptPairs env s m entries) ∧
    generate_sft_data env entries s false m =
      (match firstFailureMsg env s m entries with
       | none => .ok (keptPairs env s m entries)
       | some msg => .error msg) ∧
    ∀ name fp orig, ∃ pre, errorMessage name fp orig = pre ++ orig := by
  refine ⟨?_, ?_, ?_⟩
  · have h := generateLoop_skip env s m entries []
    simpa [generate_sft_data] using h
  · have h := generateLoop_strict env s m entries []
    cases hf : firstFailureMsg env s m entries with
    | none => simp only [hf] at h; simpa [generate_sft_data] using h
    | some msg => simp only [hf] at h; simpa [generate_sft_data] using h
  · intro name fp orig
    exact ⟨"❌ 에러 발생 (" ++ name ++ "): " ++ fp ++ "\n", rfl⟩

/-- The selected strategy indices are exactly the first `min s 4`. -/
lemma selectedIdx_eq (s : Nat) :
    selectedIdx s = List.range (min s numStrategies) := by
  rw [selectedIdx, List.take_range]

/-- All-successful calls keep every selected outcome. -/
lemma filterMap_exOk_length (env : StrategyOracle) (e : CodeEntry) :
    ∀ idxs : List Nat, (∀ i ∈ idxs, (env i e).isOk = true) →
      (idxs.filterMap (fun i => exOk? (env i e))).length = idxs.length := by
  intro idxs
  induction idxs with
  | nil => intro _; rfl
  | cons i rest ih =>
    intro h
    have hi := h i (List.mem_cons_self _ _)
    cases henv : env i e with
    | error msg =>
      rw [henv] at hi
      simp [Except.isOk, Except.toBool] at hi
    | ok p =>
      have hx : exOk? (env i e) = some p := by rw [henv]; rfl
      rw [List.filterMap_cons]
      simp only [hx]
      simp [ih (fun j hj => h j (List.mem_cons_of_mem _ hj))]

/-- No failure arises from all-successful calls. -/
lemma findFail_none (env : StrategyOracle) (e : CodeEntry) :
    ∀ idxs : List Nat, (∀ i ∈ idxs, (env i e).isOk = true) →
      idxs.findSome? (fun i =>
        match env i e with
        | .error msg => some (errorMessage (strategyNames.getD i "") e.file_path msg)
        | .ok _ => none) = none := by
  intro idxs
  induction idxs with
  | nil => intro _; rfl
  | cons i rest ih =>
    intro h
    have hi := h i (List.mem_cons_self _ _)
    cases henv : env i e with
    | error msg =>
      rw [henv] at hi
      simp [Except.isOk, Except.toBool] at hi
    | ok p =>
      have hh : (match env i e with
          | Except.error msg =>
              some (errorMessage (strategyNames.getD i "") e.file_path msg)
          | Except.ok _ => none) = (none : Option String) := by rw [henv]
      rw [List.findSome?_cons]
      simp only [hh]
      exact ih (fun j hj => h j (List.mem_cons_of_mem _ hj))

/-- C4 (amended): for an entry within the length bound every run yields
exactly `min strategies_per_code 4` pairs when all selected strategy calls
succeed — the active menu holds only four strategies, so requests of 5-8
cap at 4 — and with skip_errors the count is at most `min strategies_per_code
4`. -/
theorem generator_pair_count (env : StrategyOracle) (e : CodeEntry)
    (s m : Nat) (skip : Bool) (hlen : e.content.length ≤ m) :
    ((∀ i, i < min s numStrategies → (env i e).isOk = true) →
      ∃ out, generate_sft_data env [e] s skip m = .ok out ∧
        out.length = min s numStrategies) ∧
    (∃ out, generate_sft_data env [e] s true m = .ok out ∧
      out.length ≤ min s numStrategies) := by
  have hdec : decide (e.content.length ≤ m) = true := by
    simp only [decide_eq_true_eq]; exact hlen
  have hkept : keptPairs env s m [e] =
      (selectedIdx s).filterMap (fun i => exOk? (env i e)) := by
    rw [keptPairs_cons_keep env s m e [] hdec]
    simp [keptPairs]
  have hselLen : (selectedIdx s).length = min s numStrategies := by
    rw [selectedIdx_eq, List.length_range]
  constructor
  · intro hok
    have hmem : ∀ i ∈ selectedIdx s, (env i e).isOk = true := by
      intro i hii
      rw [selectedIdx_eq] at hii
      exact hok i (List.mem_range.mp hii)
    have hlenEq : ((selectedIdx s).filterMap (fun i => exOk? (env i e))).length =
        min s numStrategies := by
      rw [filterMap_exOk_length env e (selectedIdx s) hmem, hselLen]
    cases skip with
    | true =>
      refine ⟨keptPairs env s m [e], ?_, ?_⟩
      · have h := generateLoop_skip env s m [e] []
        simpa [generate_sft_data] using h
      · rw [hkept]; exact hlenEq
    | false =>
      have hff : firstFailureMsg env s m [e] = none := by
        have hfn := findFail_none env e (selectedIdx s) hmem
        rw [firstFailureMsg_cons_keep_none env s m e [] hdec hfn]
        rfl
      refine ⟨keptPairs env s m [e], ?_, ?_⟩
      · have h := generateLoop_strict env s m [e] []
        rw [hff] at h
        simpa [generate_sft_data] using h
      · rw [hkept]; exact hlenEq
  · refine ⟨keptPairs env s m [e], ?_, ?_⟩
    · have h := generateLoop_skip env s m [e] []
      simpa [generate_sft_data] using h
    · rw [hkept]
      calc ((selectedIdx s).filterMap (fun i => exOk? (env i e))).length
          ≤ (selectedIdx s).length := List.length_filterMap_le _ _
        _ = min s numStrategies := hselLen

/-- The concrete entry used for C4's witness and counterexample. -/
def c4Entry : CodeEntry := { repo_id := "r", file_path := "a.py", content := "x" }

/-- Concrete successful pair returned by the all-success oracle. -/
def c4Pair (i : Nat) : SFTEntry :=
  { instruction := "inst", output := "out",
    metadata := { strategy := strategyNames.getD i "", repo_id := "r",
                  file_path := "a.py" } }

/-- Oracle on which every strategy call succeeds. -/
def c4Env : StrategyOracle := fun i _ => .ok (c4Pair i)

/-- C4 counterexample: strategies_per_code = 5 lies in the advertised 1-8
range, the entry is within the length bound, and every call succeeds, yet
only 4 pairs come out, because the active menu holds 4 strategies. -/
theorem generator_count_claim_false :
    c4Entry.content.length ≤ 2000 ∧ 1 ≤ 5 ∧ 5 ≤ 8 ∧
    generate_sft_data c4Env [c4Entry] 5 false 2000 =
      .ok [c4Pair 0, c4Pair 1, c4Pair 2, c4Pair 3] ∧
    [c4Pair 0, c4Pair 1, c4Pair 2, c4Pair 3].length ≠ 5 :=
  ⟨by decide, by decide, by decide, rfl, by decide⟩

/-- C4 witness: the amended count at strategies_per_code = 3, where all
three selected calls succeed and exactly three pairs come out. -/
theorem generator_pair_count_witness :
    ∃ out, generate_sft_data c4Env [c4Entry] 3 false 2000 = .ok out ∧
      out.length = min 3 numStrategies :=
  (generator_pair_count c4Env c4Entry 3 2000 false (by decide)).1
    (fun i _ => rfl)

/-- C5: whenever every non-directory entry is readable under one of the two
encodings, the harvest succeeds, yields exactly one record per non-directory
entry, and every record's token count is the (non-negative) length of the
tokenizer's encoding of its content. -/
theorem harvester_output_spec (repoId : String) (tok : String → List Nat)
    (relp : String → String) (fs : List FsEntry)
    (hread : ∀ e ∈ fs, e.isDir = false → (readFile e).isOk = true) :
    ∃ ds, harvest repoId tok relp fs = .ok ds ∧
      ds.length = (fs.filter (fun e => e.isDir = false)).length ∧
      ∀ d ∈ ds, d.token_size = (tok d.content).length ∧
        0 ≤ (d.token_size : Int) := by
  induction fs with
  | nil => exact ⟨[], rfl, rfl, by simp⟩
  | cons e rest ih =>
    obtain ⟨ds, hds, hlen, hall⟩ :=
      ih (fun q hq hqd => hread q (List.mem_cons_of_mem _ hq) hqd)
    cases hdir : e.isDir with
    | true =>
      refine ⟨ds, ?_, ?_, hall⟩
      · simp only [harvest, hdir, if_pos rfl]
        exact hds
      · rw [hlen, List.filter_cons]
        simp [hdir]
    | false =>
      have hok := hread e (List.mem_cons_self _ _) hdir
      cases hrf : readFile e with
      | error msg =>
        rw [hrf] at hok
        simp [Except.isOk, Except.toBool] at hok
      | ok code =>
        refine ⟨{ repo_id := repoId, file_path := relp e.path, content := code,
                  size := e.size, token_size := (tok code).length } :: ds,
          ?_, ?_, ?_⟩
        · simp only [harvest, hdir, hrf, hds]
          simp
        · rw [List.filter_cons]
          simp [hdir, hlen]
        · intro d hd
          rcases List.mem_cons.mp hd with h | h
          · subst h
            exact ⟨rfl, Int.natCast_nonneg _⟩
          · exact hall d h

/-- A directory used in the harvester witnesses. -/
def c9Dir : FsEntry :=
  { path := "sub", isDir := true, utf8 := none, cp949 := none, size := 0 }

/-- A file readable under the primary encoding. -/
def c5File1 : FsEntry :=
  { path := "a.txt", isDir := false, utf8 := some "hi", cp949 := none, size := 2 }

/-- A file readable only under the fallback encoding. -/
def c5File2 : FsEntry :=
  { path := "b.bin", isDir := false, utf8 := none, cp949 := some "z", size := 1 }

/-- A concrete tokenizer model for the witnesses. -/
def wTok (s : String) : List Nat := s.data.map Char.toNat

/-- C5 witness: a concrete tree with one directory and two files, one of
them cp949-decoded, harvested into two records. -/
theorem harvester_output_spec_witness :
    ∃ ds, harvest "repo" wTok id [c9Dir, c5File1, c5File2] = .ok ds ∧
      ds.length = ([c9Dir, c5File1, c5File2].filter
        (fun e => e.isDir = false)).length ∧
      ∀ d ∈ ds, d.token_size = (wTok d.content).length ∧
        0 ≤ (d.token_size : Int) :=
  harvester_output_spec "repo" wTok id [c9Dir, c5File1, c5File2] (by decide)

/-- The running fold of a Python `max(…, key=fst)` call stays in the list. -/
lemma foldlMax_mem (xs : List (Nat × String)) :
    ∀ x : Nat × String,
      xs.foldl (fun b a => if b.1 < a.1 then a else b) x ∈ x :: xs := by
  induction xs with
  | nil => intro x; exact List.mem_cons_self _ _
  | cons a rest ih =>
    intro x
    rw [List.foldl_cons]
    have hsub := ih (if x.1 < a.1 then a else x)
    rcases List.mem_cons.mp hsub with h | h
    · rw [h]
      split
      · exact List.mem_cons_of_mem _ (List.mem_cons_self _ _)
      · exact List.mem_cons_self _ _
    · exact List.mem_cons_of_mem _ (List.mem_cons_of_mem _ h)

/-- The fold of `max(…, key=fst)` dominates every element it saw. -/
lemma foldlMax_ge (xs : List (Nat × String)) :
    ∀ x : Nat × String, ∀ y ∈ x :: xs,
      y.1 ≤ (xs.foldl (fun b a => if b.1 < a.1 then a else b) x).1 := by
  induction xs with
  | nil =>
    intro x y hy
    rcases List.mem_cons.mp hy with h | h
    · subst h; simp
    · cases h
  | cons a rest ih =>
    intro x y hy
    rw [List.foldl_cons]
    have hx : x.1 ≤ (if x.1 < a.1 then a else x).1 := by
      split
      · omega
      · exact le_refl _
    have ha : a.1 ≤ (if x.1 < a.1 then a else x).1 := by
      split
      · exact le_refl _
      · omega
    have hz := ih (if x.1 < a.1 then a else x)
    rcases List.mem_cons.mp hy with h | h
    · rw [h]
      exact le_trans hx (hz _ (List.mem_cons_self _ _))
    · rcases List.mem_cons.mp h with h2 | h2
      · rw [h2]
        exact le_trans ha (hz _ (List.mem_cons_self _ _))
      · exact hz y (List.mem_cons_of_mem _ h2)

/-- The running fold of a Python `min(…, key=fst)` call stays in the list. -/
lemma foldlMin_mem (xs : List (Nat × String)) :
    ∀ x : Nat × String,
      xs.foldl (fun b a => if a.1 < b.1 then a else b) x ∈ x :: xs := by
  induction xs with
  | nil => intro x; exact List.mem_cons_self _ _
  | cons a rest ih =>
    intro x
    rw [List.foldl_cons]
    have hsub := ih (if a.1 < x.1 then a else x)
    rcases List.mem_cons.mp hsub with h | h
    · rw [h]
      split
      · exact List.mem_cons_of_mem _ (List.mem_cons_self _ _)
      · exact List.mem_cons_self _ _
    · exact List.mem_cons_of_mem _ (List.mem_cons_of_mem _ h)

/-- The fold of `min(…, key=fst)` is below every element it saw. -/
lemma foldlMin_le (xs : List (Nat × String)) :
    ∀ x : Nat × String, ∀ y ∈ x :: xs,
      (xs.foldl (fun b a => if a.1 < b.1 then a else b) x).1 ≤ y.1 := by
  induction xs with
  | nil =>
    intro x y hy
    rcases List.mem_cons.mp hy with h | h
    · subst h; simp
    · cases h
  | cons a rest ih =>
    intro x y hy
    rw [List.foldl_cons]
    have hx : (if a.1 < x.1 then a else x).1 ≤ x.1 := by
      split
      · omega
      · exact le_refl _
    have ha : (if a.1 < x.1 then a else x).1 ≤ a.1 := by
      split
      · exact le_refl _
      · omega
    have hz := ih (if a.1 < x.1 then a else x)
    rcases List.mem_cons.mp hy with h | h
    · rw [h]
      exact le_trans (hz _ (List.mem_cons_self _ _)) hx
    · rcases List.mem_cons.mp h with h2 | h2
      · rw [h2]
        exact le_trans (hz _ (List.mem_cons_self _ _)) ha
      · exact hz y (List.mem_cons_of_mem _ h2)

/-- C8: the statistics step succeeds exactly on non-empty token lists, and
on success reports a maximal entry, a minimal entry, and the true average of
the recorded token counts. -/
theorem harvester_stats_spec (l : List (Nat × String)) :
    ((statsStep l).isOk = true ↔ l ≠ []) ∧
    (∀ mx mn avg, statsStep l = .ok (mx, mn, avg) →
      mx ∈ l ∧ (∀ x ∈ l, x.1 ≤ mx.1) ∧
      mn ∈ l ∧ (∀ x ∈ l, mn.1 ≤ x.1) ∧
      avg = (((l.map Prod.fst).sum : Nat) : ℚ) / (l.length : ℚ)) := by
  cases l with
  | nil =>
    constructor
    · simp [statsStep, pyMaxByFst, Except.isOk, Except.toBool]
    · intro mx mn avg h
      simp [statsStep, pyMaxByFst] at h
  | cons x xs =>
    constructor
    · simp [statsStep, pyMaxByFst, pyMinByFst, Except.isOk, Except.toBool]
    · intro mx mn avg h
      simp only [statsStep, pyMaxByFst, pyMinByFst] at h
      rw [if_neg (by simp)] at h
      have h3 := Except.ok.inj h
      have hmx : xs.foldl (fun b a => if b.1 < a.1 then a else b) x = mx :=
        congrArg Prod.fst h3
      have hrest := congrArg Prod.snd h3
      have hmn : xs.foldl (fun b a => if a.1 < b.1 then a else b) x = mn :=
        congrArg Prod.fst hrest
      have havg : ((((x :: xs).map Prod.fst).sum : Nat) : ℚ) /
          ((x :: xs).length : ℚ) = avg := congrArg Prod.snd hrest
      subst hmx
      subst hmn
      subst havg
      refine ⟨foldlMax_mem xs x, foldlMax_ge xs x, foldlMin_mem xs x,
        foldlMin_le xs x, rfl⟩

/-- The concrete token list for the C8 witness. -/
def c8List : List (Nat × String) := [(3, "a"), (7, "b"), (5, "c")]

/-- C8 witness: on a concrete non-empty list the step returns the maximal
entry `(7, "b")`, the minimal entry `(3, "a")`, and the exact average. -/
theorem harvester_stats_spec_witness :
    (7, "b") ∈ c8List ∧ (∀ x ∈ c8List, x.1 ≤ (7, "b").1) ∧
    (3, "a") ∈ c8List ∧ (∀ x ∈ c8List, (3, "a").1 ≤ x.1) ∧
    (((c8List.map Prod.fst).sum : Nat) : ℚ) / (c8List.length : ℚ) =
      (((c8List.map Prod.fst).sum : Nat) : ℚ) / (c8List.length : ℚ) :=
  (harvester_stats_spec c8List).2 (7, "b") (3, "a")
    ((((c8List.map Prod.fst).sum : Nat) : ℚ) / (c8List.length : ℚ)) rfl

/-- Harvesting a tree with only directories succeeds with no records. -/
lemma harvest_all_dirs (repoId : String) (tok : String → List Nat)
    (relp : String → String) (fs : List FsEntry)
    (h : ∀ e ∈ fs, e.isDir = true) :
    harvest repoId tok relp fs = .ok [] := by
  induction fs with
  | nil => rfl
  | cons e rest ih =>
    have hd := h e (List.mem_cons_self _ _)
    simp only [harvest, hd, if_pos rfl]
    exact ih (fun q hq => h q (List.mem_cons_of_mem _ hq))

/-- C9: when the enumeration holds no files at all, the output is written —
an empty dataset — and only afterwards does the statistics step fail. -/
theorem harvester_writes_before_stats (repoId : String) (tok : String → List Nat)
    (relp : String → String) (fs : List FsEntry)
    (h : ∀ e ∈ fs, e.isDir = true) :
    (harvesterRun repoId tok relp fs).1 = some [] ∧
    ∃ msg, (harvesterRun repoId tok relp fs).2 = .error msg := by
  have hh := harvest_all_dirs repoId tok relp fs h
  constructor
  · simp [harvesterRun, hh]
  · exact ⟨"ValueError: max() arg is an empty sequence",
      by simp [harvesterRun, hh, statsStep, pyMaxByFst]⟩

/-- C9 witness: a concrete directory-only enumeration writes an empty
dataset and then the statistics step raises. -/
theorem harvester_writes_before_stats_witness :
    (harvesterRun "repo" wTok id [c9Dir]).1 = some [] ∧
    ∃ msg, (harvesterRun "repo" wTok id [c9Dir]).2 = .error msg :=
  harvester_writes_before_stats "repo" wTok id [c9Dir] (by decide)
